import Mathlib

/-!
The platform symbol aliaser of hiredis, `win32.h`.

`src/server/libs/hiredis/win32.h` is a 33-line header made of preprocessor
directives only.  It is embedded as the list of its lines, run by a small
line-by-line model of the C preprocessor (conditional stack, macro
environment, record of the `#define`s performed).  The uses of the macros are run by
a model of macro replacement with argument replacement and rescanning.

The effect of `#include <winsock2.h>` on the macro environment is not part
of the repository; it is a parameter `sys` of the model.  The routines of the
platform C runtime (`stricmp`, `_snprintf`, `strerror_s`, ...) are not part of
the repository either; where a statement speaks about calling them they are
a parameter `rt`.
-/

namespace Win32Helper

/-! ## Tokens and macros -/

/-- Preprocessing tokens, as far as the header needs them: identifiers, the
punctuators `(`, `)`, `,`, `=`, and every other token (literals, operators). -/
inductive Token where
  | ident (name : String)
  | lparen
  | rparen
  | comma
  | assign
  | other (text : String)
  deriving DecidableEq, Repr

/-- A macro definition: `params = none` for an object-like macro,
`params = some ps` for a function-like macro with parameter names `ps`;
`body` is the replacement list. -/
structure Macro where
  params : Option (List String)
  body : List Token
  deriving DecidableEq, Repr

/-- The macro environment: the definition of every name that currently is a
macro. -/
abbrev Env := String → Option Macro

/-- The environment with no macro defined. -/
def Env.empty : Env := fun _ => none

/-- The environment after `#define name m`; the definition replaces an earlier
one of the same name. -/
def Env.define (env : Env) (name : String) (m : Macro) : Env :=
  fun x => if x = name then some m else env x

/-- The effect of the system headers on the macro environment, by header
name.  Not part of the repository. -/
abbrev SysHeaders := String → Env → Env

/-! ## The lines of a header and the preprocessor -/

/-- One line of a header. -/
inductive Line where
  | ifndef (name : String)
  | ifdef (name : String)
  | endif
  | define (name : String) (m : Macro)
  | includeSys (file : String)
  | blank
  deriving DecidableEq, Repr

/-- Preprocessor state: the macro environment, the stack of open conditional
groups (innermost first; `true` when the group is being processed) and the
`#define` directives processed so far, oldest first. -/
structure PPState where
  env : Env
  conds : List Bool
  defs : List (String × Macro)

/-- Lines are processed when no group is open or the innermost open group is
processed. -/
def PPState.active (st : PPState) : Bool := st.conds.headD true

/-- Process one line. -/
def step (sys : SysHeaders) (st : PPState) : Line → PPState
  | .ifndef name =>
      { st with conds := (st.active && (st.env name).isNone) :: st.conds }
  | .ifdef name =>
      { st with conds := (st.active && (st.env name).isSome) :: st.conds }
  | .endif => { st with conds := st.conds.tail }
  | .define name m =>
      if st.active then
        { st with env := st.env.define name m, defs := st.defs ++ [(name, m)] }
      else st
  | .includeSys file =>
      if st.active then { st with env := sys file st.env } else st
  | .blank => st

/-- Process the lines of a header from a macro environment. -/
def runLines (sys : SysHeaders) (ls : List Line) (env : Env) : PPState :=
  ls.foldl (step sys) { env := env, conds := [], defs := [] }

/-! ## The header -/

/-- The include guard of the header. -/
def guardName : String := "_WIN32_HELPER_INCLUDE"

/-- Line 2: `#define _WIN32_HELPER_INCLUDE`. -/
def guardMacro : Macro := ⟨none, []⟩

/-- Line 8: `#define inline __inline`. -/
def inlineMacro : Macro := ⟨none, [.ident "__inline"]⟩

/-- Line 12: `#define strcasecmp stricmp`. -/
def strcasecmpMacro : Macro := ⟨none, [.ident "stricmp"]⟩

/-- Line 16: `#define strncasecmp strnicmp`. -/
def strncasecmpMacro : Macro := ⟨none, [.ident "strnicmp"]⟩

/-- Line 20: `#define va_copy(d,s) ((d) = (s))`. -/
def vaCopyMacro : Macro :=
  ⟨some ["d", "s"],
   [.lparen, .lparen, .ident "d", .rparen, .assign, .lparen, .ident "s", .rparen, .rparen]⟩

/-- Line 24: `#define snprintf _snprintf`. -/
def snprintfMacro : Macro := ⟨none, [.ident "_snprintf"]⟩

/-- Line 30: `#define strerror_r(errno,buf,len) strerror_s(buf,len,errno)`. -/
def strerrorRMacro : Macro :=
  ⟨some ["errno", "buf", "len"],
   [.ident "strerror_s", .lparen, .ident "buf", .comma, .ident "len", .comma,
    .ident "errno", .rparen]⟩

/-- The 33 lines of `win32.h`, in order. -/
def win32_h : List Line :=
  [ Line.ifndef "_WIN32_HELPER_INCLUDE",            -- 1
    Line.define "_WIN32_HELPER_INCLUDE" guardMacro, -- 2
    Line.ifdef "_WIN32",                            -- 3
    Line.blank,                                     -- 4
    Line.includeSys "winsock2.h",                   -- 5
    Line.blank,                                     -- 6
    Line.ifndef "inline",                           -- 7
    Line.define "inline" inlineMacro,               -- 8
    Line.endif,                                     -- 9
    Line.blank,                                     -- 10
    Line.ifndef "strcasecmp",                       -- 11
    Line.define "strcasecmp" strcasecmpMacro,       -- 12
    Line.endif,                                     -- 13
    Line.blank,                                     -- 14
    Line.ifndef "strncasecmp",                      -- 15
    Line.define "strncasecmp" strncasecmpMacro,     -- 16
    Line.endif,                                     -- 17
    Line.blank,                                     -- 18
    Line.ifndef "va_copy",                          -- 19
    Line.define "va_copy" vaCopyMacro,              -- 20
    Line.endif,                                     -- 21
    Line.blank,                                     -- 22
    Line.ifndef "snprintf",                         -- 23
    Line.define "snprintf" snprintfMacro,           -- 24
    Line.blank,                                     -- 25
    Line.endif,                                     -- 26
    Line.endif,                                     -- 27
    Line.blank,                                     -- 28
    Line.ifdef "_WIN32",                            -- 29
    Line.define "strerror_r" strerrorRMacro,        -- 30
    Line.endif,                                     -- 31
    Line.blank,                                     -- 32
    Line.endif ]                                    -- 33

/-- The macro environment after `#include "win32.h"`. -/
def includeHeader (sys : SysHeaders) (env : Env) : Env :=
  (runLines sys win32_h env).env

/-- The `#define` directives of the header that are processed when it is
included, in order. -/
def headerDefines (sys : SysHeaders) (env : Env) : List (String × Macro) :=
  (runLines sys win32_h env).defs

/-- The names the header tests or defines. -/
def managedNames : List String :=
  ["_WIN32_HELPER_INCLUDE", "_WIN32", "inline", "strcasecmp", "strncasecmp", "va_copy",
   "snprintf", "strerror_r"]

/-- A system header leaves the given names as they are. -/
def Preserves (f : Env → Env) (names : List String) : Prop :=
  ∀ e n, n ∈ names → f e n = e n

/-! ## Macro replacement -/

/-- A token on its way through macro replacement, with its hide set: the
names of the macros whose replacement produced it, which are not replaced in
it again. -/
structure PTok where
  tok : Token
  hide : List String
  deriving DecidableEq, Repr

/-- Source tokens enter replacement with an empty hide set. -/
def lift (ts : List Token) : List PTok := ts.map fun t => ⟨t, []⟩

/-- The tokens that leave replacement. -/
def erase (ts : List PTok) : List Token := ts.map PTok.tok

/-- Add names to the hide set of every token. -/
def addHide (names : List String) (ts : List PTok) : List PTok :=
  ts.map fun t => { t with hide := names ++ t.hide }

/-- Collect the arguments of a function-like macro invocation or of a call,
from the token after the opening parenthesis: arguments are separated by the
commas outside nested parentheses and end at the matching `)`.  `cur` is the
argument being read and `done` the arguments read, both reversed.  The result
is the arguments, the closing parenthesis and the tokens after it. -/
def splitArgs {α : Type} (tk : α → Token) :
    Nat → List α → List α → List (List α) → Option (List (List α) × α × List α)
  | _, [], _, _ => none
  | depth, t :: ts, cur, done =>
      match tk t, depth with
      | .lparen, _ => splitArgs tk (depth + 1) ts (t :: cur) done
      | .rparen, 0 => some ((cur.reverse :: done).reverse, t, ts)
      | .rparen, d + 1 => splitArgs tk d ts (t :: cur) done
      | .comma, 0 => splitArgs tk 0 ts [] (cur.reverse :: done)
      | _, _ => splitArgs tk depth ts (t :: cur) done

/-- The arguments of an invocation of a macro with parameters `ps`: `f()` is
an invocation without arguments when the macro has no parameter. -/
def invocationArgs {α : Type} (ps : List String) (args : List (List α)) : List (List α) :=
  match ps, args with
  | [], [[]] => []
  | _, _ => args

/-- The results when every one is there. -/
def allSome {α : Type} : List (Option α) → Option (List α)
  | [] => some []
  | none :: _ => none
  | some a :: as => (allSome as).map (a :: ·)

/-- The replacement list with every parameter replaced by its (replaced)
argument. -/
def substitute (params : List String) (args : List (List PTok)) (body : List Token) :
    List PTok :=
  body.flatMap fun t =>
    match t with
    | .ident x => ((params.zip args).lookup x).getD [⟨t, []⟩]
    | _ => [⟨t, []⟩]

/-- Macro replacement of a token sequence, with rescanning: a name in its own
hide set or not a macro is kept; an object-like macro name is replaced by its
replacement list; a function-like macro name followed by `(` is replaced by
its replacement list with the parameters replaced by the completely replaced
arguments; the replacement, hidden from the replaced name, is scanned again
together with the tokens that follow.  `fuel` bounds the number of steps;
`none` when it runs out or an invocation is malformed. -/
def expand (env : Env) : Nat → List PTok → Option (List PTok)
  | 0, _ => none
  | _ + 1, [] => some []
  | fuel + 1, t :: ts =>
      match t.tok with
      | .ident x =>
          if x ∈ t.hide then (expand env fuel ts).map (t :: ·)
          else
            match env x with
            | none => (expand env fuel ts).map (t :: ·)
            | some m =>
                match m.params with
                | none => expand env fuel (addHide (x :: t.hide) (lift m.body) ++ ts)
                | some ps =>
                    match ts with
                    | [] => some [t]
                    | p :: ts1 =>
                        if p.tok = .lparen then
                          match splitArgs PTok.tok 0 ts1 [] [] with
                          | none => none
                          | some (args, close, after) =>
                              if (invocationArgs ps args).length = ps.length then
                                match allSome ((invocationArgs ps args).map (expand env fuel)) with
                                | none => none
                                | some eargs =>
                                    expand env fuel
                                      (addHide (x :: t.hide.filter (· ∈ close.hide))
                                        (substitute ps eargs m.body) ++ after)
                              else none
                        else (expand env fuel ts).map (t :: ·)
      | _ => (expand env fuel ts).map (t :: ·)

/-- The source tokens after macro replacement. -/
def preprocess (env : Env) (fuel : Nat) (ts : List Token) : Option (List Token) :=
  (expand env fuel (lift ts)).map erase

/-- The token is not replaced: it is no identifier, names no macro or is
hidden from its name. -/
def plainTok (env : Env) (t : PTok) : Bool :=
  match t.tok with
  | .ident x => (env x).isNone || decide (x ∈ t.hide)
  | _ => true

/-- No token of the sequence is replaced. -/
def Plain (env : Env) (ts : List PTok) : Prop := ∀ t ∈ ts, plainTok env t = true

instance (env : Env) (ts : List PTok) : Decidable (Plain env ts) :=
  inferInstanceAs (Decidable (∀ t ∈ ts, plainTok env t = true))

/-- The source tokens `a` are replaced by tokens that are replaced no further,
`b` once their hide sets are dropped. -/
def ExpandsTo (env : Env) (a b : List Token) : Prop :=
  ∃ fuel p, expand env fuel (lift a) = some p ∧ Plain env p ∧ erase p = b

/-- Scan one argument from nesting depth `depth`: the depth reached after its
last token, `none` when the argument holds a comma or a closing parenthesis
outside its own parentheses. -/
def argDepth : Nat → List Token → Option Nat
  | depth, [] => some depth
  | depth, .lparen :: ts => argDepth (depth + 1) ts
  | 0, .rparen :: _ => none
  | depth + 1, .rparen :: ts => argDepth depth ts
  | 0, .comma :: _ => none
  | depth, _ :: ts => argDepth depth ts

/-- The token sequence is one argument: its parentheses are balanced and it
has no comma outside them. -/
def isArg (a : List Token) : Prop := argDepth 0 a = some 0

instance (a : List Token) : Decidable (isArg a) :=
  inferInstanceAs (Decidable (argDepth 0 a = some 0))

/-- The argument list `a1, ..., an)` from after the opening parenthesis. -/
def argTokens : List (List Token) → List Token
  | [] => [.rparen]
  | [a] => a ++ [.rparen]
  | a :: b :: as => a ++ .comma :: argTokens (b :: as)

/-- The tokens of `f(a1, ..., an)`. -/
def callTokens (f : String) (args : List (List Token)) : List Token :=
  .ident f :: .lparen :: argTokens args

/-! ## Calls of runtime routines -/

/-- Memory: the byte at each address. -/
abbrev Mem := Int → Nat

/-- The routines of the platform C runtime, by name: from the argument values
and the memory to the returned value and the memory after the call.  Not part
of the repository. -/
abbrev Runtime := String → List Int → Mem → Int × Mem

/-- Read a token sequence as a call `f(args)`; `f()` is a call without
arguments. -/
def callOf : List Token → Option (String × List (List Token))
  | .ident f :: .lparen :: rest =>
      match splitArgs id 0 rest [] [] with
      | some (args, _, []) => some (f, invocationArgs [] args)
      | _ => none
  | _ => none

/-- Call the routine named in the call `f(args)`, on the values `val` gives
the argument expressions. -/
def runCall (rt : Runtime) (val : List Token → Int) (toks : List Token) (mem : Mem) :
    Option (Int × Mem) :=
  match callOf toks with
  | some (f, args) => some (rt f (args.map val) mem)
  | none => none

/-- Run a call written in the source: macro replacement first, then the call
of the routine that the replaced tokens name. -/
def evalCall (rt : Runtime) (val : List Token → Int) (env : Env) (fuel : Nat)
    (toks : List Token) (mem : Mem) : Option (Int × Mem) :=
  (preprocess env fuel toks).bind fun ts => runCall rt val ts mem

/-- No byte past the first `len` bytes of the buffer at `buf` differs between
the two memories. -/
def WritesWithin (before after : Mem) (buf len : Int) : Prop :=
  ∀ a, buf + len ≤ a → after a = before a

/-! ## Argument cursors -/

/-- The objects holding argument cursors.  On the platform of the header a
cursor is a plain value: the position of the next argument. -/
abbrev Store := String → Nat

/-- The tokens up to the parenthesis that closes the group entered before
them, and the tokens after it. -/
def takeGroup : Nat → List Token → List Token → Option (List Token × List Token)
  | _, [], _ => none
  | depth, .lparen :: ts, cur => takeGroup (depth + 1) ts (.lparen :: cur)
  | 0, .rparen :: ts, cur => some (cur.reverse, ts)
  | depth + 1, .rparen :: ts, cur => takeGroup depth ts (.rparen :: cur)
  | depth, t :: ts, cur => takeGroup depth ts (t :: cur)

/-- Read `((d) = (s))` as the two operand expressions. -/
def assignOf : List Token → Option (List Token × List Token)
  | .lparen :: .lparen :: ts =>
      match takeGroup 0 ts [] with
      | some (d, .assign :: .lparen :: ts2) =>
          match takeGroup 0 ts2 [] with
          | some (s, [.rparen]) => some (d, s)
          | _ => none
      | _ => none
  | _ => none

/-- Execute the expression `((d) = (s))`: the object the expression `d`
designates (by `loc`) receives the value of the expression `s` (by `rval`). -/
def execAssign (loc : List Token → Option String) (rval : List Token → Store → Nat)
    (st : Store) (toks : List Token) : Option Store :=
  match assignOf toks with
  | some (d, s) =>
      match loc d with
      | some ld => some fun x => if x = ld then rval s st else st x
      | none => none
  | none => none

/-- Fetch the next argument through the cursor `ap` and advance it
(`va_arg(ap, T)`). -/
def vaArg (args : List Int) (ap : String) (st : Store) : Option Int × Store :=
  (args[st ap]?, fun x => if x = ap then st ap + 1 else st x)

/-- Fetch `k` arguments in a row through the cursor `ap`. -/
def consume (args : List Int) (ap : String) : Nat → Store → List (Option Int) × Store
  | 0, st => ([], st)
  | k + 1, st =>
      let r := vaArg args ap st
      let rs := consume args ap k r.2
      (r.1 :: rs.1, rs.2)

/-! ## Names, tables and sample environments -/

/-- The macro environment when `winsock2.h` has been included at line 5. -/
def afterWinsock (sys : SysHeaders) (env : Env) : Env :=
  sys "winsock2.h" (env.define guardName guardMacro)

/-- The five portable names of the aliasing table of the specification. -/
def portableNames : List String :=
  ["strcasecmp", "strncasecmp", "va_copy", "snprintf", "strerror_r"]

/-- The five names the header defines only when they are not defined yet. -/
def guardedNames : List String :=
  ["inline", "strcasecmp", "strncasecmp", "va_copy", "snprintf"]

/-- Every `#define` of the header, in order. -/
def aliasTable : List (String × Macro) :=
  [(guardName, guardMacro), ("inline", inlineMacro), ("strcasecmp", strcasecmpMacro),
   ("strncasecmp", strncasecmpMacro), ("va_copy", vaCopyMacro), ("snprintf", snprintfMacro),
   ("strerror_r", strerrorRMacro)]

/-- System headers that define no macro. -/
def SysHeaders.quiet : SysHeaders := fun _ e => e

/-- System headers where `winsock2.h` defines `AF_INET`. -/
def SysHeaders.sample : SysHeaders :=
  fun file e => if file = "winsock2.h" then e.define "AF_INET" ⟨none, [.other "2"]⟩ else e

/-- A translation unit on the special-cased platform: only `_WIN32` is defined. -/
def win32Env : Env := Env.empty.define "_WIN32" ⟨none, [.other "1"]⟩

/-- The same with `strcasecmp` already defined by the including code. -/
def win32EnvOwnCmp : Env := win32Env.define "strcasecmp" ⟨none, [.ident "my_strcasecmp"]⟩

/-- A translation unit on another platform: only `__unix__` is defined. -/
def unixEnv : Env := Env.empty.define "__unix__" ⟨none, [.other "1"]⟩

/-- The platform with the guard of the header already defined. -/
def win32EnvGuarded : Env := win32Env.define guardName guardMacro

/-- A sample runtime: `stricmp` and `strnicmp` return 0 and write nothing;
`_snprintf`, `snprintf` and `strerror_s`, called on `dst, cap, ...`, store one
byte at `dst` when `cap` is positive and return 1; any other routine returns
-1 and writes nothing. -/
def sampleRuntime : Runtime := fun f args mem =>
  if f = "stricmp" ∨ f = "strnicmp" then (0, mem)
  else if f = "_snprintf" ∨ f = "snprintf" ∨ f = "strerror_s" then
    match args with
    | dst :: cap :: _ => (1, fun a => if a = dst ∧ 0 < cap then 65 else mem a)
    | _ => (1, mem)
  else (-1, mem)

/-- A sample reading of operands: an identifier designates the object of that
name. -/
def sampleLoc : List Token → Option String
  | [.ident x] => some x
  | _ => none

/-- The value of an operand under the sample reading. -/
def sampleRval (e : List Token) (st : Store) : Nat :=
  match sampleLoc e with
  | some l => st l
  | none => 0

/-! ## The three runs of the header -/

/-- The header is skipped when its guard is defined. -/
theorem runLines_skip (sys : SysHeaders) (env : Env) (hg : env guardName ≠ none) :
    (runLines sys win32_h env).env = env ∧ (runLines sys win32_h env).defs = [] := by
  obtain ⟨m, hm⟩ := Option.ne_none_iff_exists'.mp hg
  simp only [guardName] at hm
  simp [runLines, win32_h, step, PPState.active, hm]

/-- Off the platform only the guard is defined. -/
theorem runLines_other (sys : SysHeaders) (env : Env) (hg : env guardName = none)
    (hw : env "_WIN32" = none) :
    (runLines sys win32_h env).env = env.define guardName guardMacro ∧
      (runLines sys win32_h env).defs = [(guardName, guardMacro)] := by
  simp only [guardName] at hg
  simp [runLines, win32_h, step, PPState.active, guardName, Env.define, hg, hw]

/-- On the platform: the environment and the definitions performed, in terms
of the environment left by `winsock2.h`. -/
theorem runLines_win32 (sys : SysHeaders) (env : Env) (hg : env guardName = none)
    (hw : env "_WIN32" ≠ none) :
    (∀ x, (runLines sys win32_h env).env x =
      if x = "strerror_r" ∧ afterWinsock sys env "_WIN32" ≠ none then some strerrorRMacro
      else if x = "snprintf" ∧ afterWinsock sys env "snprintf" = none then some snprintfMacro
      else if x = "va_copy" ∧ afterWinsock sys env "va_copy" = none then some vaCopyMacro
      else if x = "strncasecmp" ∧ afterWinsock sys env "strncasecmp" = none then
        some strncasecmpMacro
      else if x = "strcasecmp" ∧ afterWinsock sys env "strcasecmp" = none then
        some strcasecmpMacro
      else if x = "inline" ∧ afterWinsock sys env "inline" = none then some inlineMacro
      else afterWinsock sys env x) ∧
    (runLines sys win32_h env).defs =
      [(guardName, guardMacro)]
        ++ (if afterWinsock sys env "inline" = none then [("inline", inlineMacro)] else [])
        ++ (if afterWinsock sys env "strcasecmp" = none then [("strcasecmp", strcasecmpMacro)]
            else [])
        ++ (if afterWinsock sys env "strncasecmp" = none then
              [("strncasecmp", strncasecmpMacro)] else [])
        ++ (if afterWinsock sys env "va_copy" = none then [("va_copy", vaCopyMacro)] else [])
        ++ (if afterWinsock sys env "snprintf" = none then [("snprintf", snprintfMacro)] else [])
        ++ (if afterWinsock sys env "_WIN32" ≠ none then [("strerror_r", strerrorRMacro)]
            else []) := by
  obtain ⟨m, hm⟩ := Option.ne_none_iff_exists'.mp hw
  simp only [guardName] at hg
  unfold afterWinsock
  generalize he : sys "winsock2.h" (env.define guardName guardMacro) = e2
  simp only [guardName] at he
  rcases h1 : e2 "inline" with _ | m1 <;> rcases h2 : e2 "strcasecmp" with _ | m2 <;>
  rcases h3 : e2 "strncasecmp" with _ | m3 <;> rcases h4 : e2 "va_copy" with _ | m4 <;>
  rcases h5 : e2 "snprintf" with _ | m5 <;> rcases h6 : e2 "_WIN32" with _ | m6 <;>
  simp [runLines, win32_h, step, PPState.active, guardName, Env.define, hg, hm, he,
    h1, h2, h3, h4, h5, h6]

/-- What `winsock2.h` leaves of a managed name other than the guard. -/
theorem afterWinsock_of_preserves (sys : SysHeaders) (env : Env)
    (hP : Preserves (sys "winsock2.h") managedNames) (n : String) (hn : n ∈ managedNames)
    (hne : n ≠ guardName) : afterWinsock sys env n = env n := by
  rw [afterWinsock, hP _ n hn]
  simp [Env.define, hne]

/-- The sample system headers leave the managed names alone. -/
theorem sample_preserves : Preserves (SysHeaders.sample "winsock2.h") managedNames := by
  intro e n hn
  simp only [managedNames, List.mem_cons, List.mem_singleton, List.not_mem_nil, or_false] at hn
  rcases hn with h | h | h | h | h | h | h | h <;> subst h <;>
    simp [SysHeaders.sample, Env.define]

/-- System headers that define nothing leave every name alone. -/
theorem quiet_preserves (names : List String) :
    Preserves (SysHeaders.quiet "winsock2.h") names := by
  intro e n _; rfl


/-- What `winsock2.h` leaves of the platform flag and of the five guarded
names. -/
theorem afterWinsock_guarded (sys : SysHeaders) (env : Env)
    (hP : Preserves (sys "winsock2.h") managedNames) (n : String)
    (hn : n ∈ "_WIN32" :: guardedNames) : afterWinsock sys env n = env n := by
  apply afterWinsock_of_preserves sys env hP
  · simp only [guardedNames, List.mem_cons, List.mem_singleton, List.not_mem_nil,
      or_false] at hn
    rcases hn with h | h | h | h | h | h <;> subst h <;> decide
  · simp only [guardedNames, List.mem_cons, List.mem_singleton, List.not_mem_nil,
      or_false] at hn
    rcases hn with h | h | h | h | h | h <;> subst h <;> decide

/-! ## The effect of inclusion on the macro environment -/

/-- C1 (as stated, refuted): off the platform the environment after inclusion
is not the environment before: from the empty environment, where `_WIN32` is
not defined, inclusion defines the include guard `_WIN32_HELPER_INCLUDE`. -/
theorem include_off_platform_defines_guard :
    Env.empty "_WIN32" = none ∧
      includeHeader SysHeaders.quiet Env.empty ≠ Env.empty ∧
      Env.empty guardName = none ∧
      includeHeader SysHeaders.quiet Env.empty guardName = some guardMacro := by
  refine ⟨rfl, ?_, rfl, by decide⟩
  intro h
  have h1 := congrFun h guardName
  revert h1
  decide

/-- C1 (amended): when `_WIN32` is not defined, inclusion changes at most the
include guard: the environment after is the environment before with
`_WIN32_HELPER_INCLUDE` defined (empty replacement) when it was not defined,
and is unchanged when it was; every other name keeps its definition and no
other `#define` of the header is processed. -/
theorem include_off_platform (sys : SysHeaders) (env : Env) (hw : env "_WIN32" = none) :
    includeHeader sys env =
        (if env guardName = none then env.define guardName guardMacro else env) ∧
      (∀ n, n ≠ guardName → includeHeader sys env n = env n) ∧
      (∀ p ∈ headerDefines sys env, p = (guardName, guardMacro)) := by
  by_cases hg : env guardName = none
  · have h := runLines_other sys env hg hw
    refine ⟨by simp [includeHeader, h.1, hg], ?_, ?_⟩
    · intro n hn
      simp [includeHeader, h.1, Env.define, hn]
    · intro p hp
      simpa [headerDefines, h.2] using hp
  · have h := runLines_skip sys env hg
    refine ⟨by simp [includeHeader, h.1, hg], ?_, ?_⟩
    · intro n _
      simp [includeHeader, h.1]
    · intro p hp
      simp [headerDefines, h.2] at hp

/-- Witness for C1 (amended) on a unix translation unit. -/
theorem include_off_platform_witness :
    unixEnv "_WIN32" = none ∧
      includeHeader SysHeaders.sample unixEnv =
        (if unixEnv guardName = none then unixEnv.define guardName guardMacro else unixEnv) :=
  ⟨by decide, (include_off_platform SysHeaders.sample unixEnv (by decide)).1⟩

/-- C3 (as stated, refuted): on the platform inclusion newly defines names
outside the five portable names: `inline` and the include guard. -/
theorem include_defines_inline_and_guard :
    win32Env "inline" = none ∧ includeHeader SysHeaders.quiet win32Env "inline" ≠ none ∧
      "inline" ∉ portableNames ∧
      win32Env guardName = none ∧ includeHeader SysHeaders.quiet win32Env guardName ≠ none ∧
      guardName ∉ portableNames := by
  decide

/-- C3 (amended): a name newly defined by inclusion is one of the five portable
names, `inline`, the include guard `_WIN32_HELPER_INCLUDE`, or, on the
platform, a name defined by the included `winsock2.h`; the `#define`s of the
header itself are of those seven names only. -/
theorem include_newly_defined (sys : SysHeaders) (env : Env) (n : String)
    (hbefore : env n = none) (hafter : includeHeader sys env n ≠ none) :
    (n ∈ guardName :: "inline" :: portableNames ∨
        (env "_WIN32" ≠ none ∧ afterWinsock sys env n ≠ none)) ∧
      ∀ p ∈ headerDefines sys env, p.1 ∈ guardName :: "inline" :: portableNames := by
  by_cases hg : env guardName = none
  · by_cases hw : env "_WIN32" = none
    · have h := runLines_other sys env hg hw
      constructor
      · left
        by_cases hn : n = guardName
        · simp [hn]
        · simp [includeHeader, h.1, Env.define, hn, hbefore] at hafter
      · intro p hp
        simp only [headerDefines, h.2, List.mem_singleton] at hp
        simp [hp]
    · have h := runLines_win32 sys env hg hw
      constructor
      · rw [includeHeader, h.1 n] at hafter
        by_cases hin : n ∈ guardName :: "inline" :: portableNames
        · exact Or.inl hin
        · right
          refine ⟨hw, ?_⟩
          simp only [portableNames, guardName, List.mem_cons, List.mem_singleton,
            List.not_mem_nil, or_false, not_or] at hin
          obtain ⟨_, h1, h2, h3, h4, h5, h6⟩ := hin
          simpa [h1, h2, h3, h4, h5, h6] using hafter
      · intro p hp
        rw [headerDefines, h.2] at hp
        simp only [List.mem_append, List.mem_singleton] at hp
        rcases hp with ((((((hp | hp) | hp) | hp) | hp) | hp) | hp)
        · simp [hp]
        all_goals
          split at hp
          · simp only [List.mem_singleton] at hp
            simp [hp, portableNames]
          · simp at hp
  · have h := runLines_skip sys env hg
    constructor
    · rw [includeHeader, h.1] at hafter
      exact absurd hbefore hafter
    · intro p hp
      simp [headerDefines, h.2] at hp

/-- Witness for C3 (amended): `va_copy` is newly defined on the platform. -/
theorem include_newly_defined_witness :
    win32Env "va_copy" = none ∧ includeHeader SysHeaders.sample win32Env "va_copy" ≠ none ∧
      ("va_copy" ∈ guardName :: "inline" :: portableNames ∨
        (win32Env "_WIN32" ≠ none ∧ afterWinsock SysHeaders.sample win32Env "va_copy" ≠ none)) :=
  ⟨by decide, by decide,
    (include_newly_defined SysHeaders.sample win32Env "va_copy" (by decide) (by decide)).1⟩

/-- After inclusion the guard is defined, when `winsock2.h` does not undefine
it. -/
theorem guard_defined_after (sys : SysHeaders) (env : Env)
    (hsys : ∀ e, e guardName ≠ none → sys "winsock2.h" e guardName ≠ none) :
    includeHeader sys env guardName ≠ none := by
  by_cases hg : env guardName = none
  · by_cases hw : env "_WIN32" = none
    · simp [includeHeader, (runLines_other sys env hg hw).1, Env.define]
    · have h2 : afterWinsock sys env guardName ≠ none :=
        hsys _ (by simp [Env.define])
      rw [includeHeader, (runLines_win32 sys env hg hw).1]
      simpa [guardName] using h2
  · rw [includeHeader, (runLines_skip sys env hg).1]
    exact hg

/-- C4: on every platform and from every environment, including the header
twice in a row gives the environment of including it once, and the second
inclusion processes no `#define` (the one of `strerror_r` included);
`winsock2.h` is taken not to undefine the guard. -/
theorem include_twice (sys : SysHeaders) (env : Env)
    (hsys : ∀ e, e guardName ≠ none → sys "winsock2.h" e guardName ≠ none) :
    includeHeader sys (includeHeader sys env) = includeHeader sys env ∧
      headerDefines sys (includeHeader sys env) = [] := by
  have h := runLines_skip sys (includeHeader sys env) (guard_defined_after sys env hsys)
  exact ⟨h.1, h.2⟩

/-- Witness for C4 on the platform. -/
theorem include_twice_witness :
    includeHeader SysHeaders.sample (includeHeader SysHeaders.sample win32Env) =
        includeHeader SysHeaders.sample win32Env ∧
      headerDefines SysHeaders.sample (includeHeader SysHeaders.sample win32Env) = [] :=
  include_twice SysHeaders.sample win32Env (by
    intro e he
    simpa [SysHeaders.sample, Env.define, guardName] using he)

/-- C9 (as stated, refuted): two environments in which `_WIN32` is defined and
the header has not been included get different definitions from the header
when one of them already defines `strcasecmp`; and where `_WIN32` is
not defined the header still defines its guard. -/
theorem outcome_not_decided_by_flag_alone :
    win32Env "_WIN32" ≠ none ∧ win32EnvOwnCmp "_WIN32" ≠ none ∧
      win32Env guardName = none ∧ win32EnvOwnCmp guardName = none ∧
      headerDefines SysHeaders.quiet win32Env ≠ headerDefines SysHeaders.quiet win32EnvOwnCmp ∧
      includeHeader SysHeaders.quiet win32Env "strcasecmp" ≠
        includeHeader SysHeaders.quiet win32EnvOwnCmp "strcasecmp" ∧
      Env.empty "_WIN32" = none ∧ Env.empty guardName = none ∧
      headerDefines SysHeaders.quiet Env.empty ≠ [] := by
  decide

/-- C9 (amended): the definitions the header performs are decided by the
platform flag together with which of `inline`, `strcasecmp`, `strncasecmp`,
`va_copy`, `snprintf` are already defined: two environments in which the
header has not been included and that agree on whether `_WIN32` and each of
these five names is defined get the same definitions; these are the include
guard alone when `_WIN32` is not defined, and the guard followed by the full
alias table when `_WIN32` is defined and none of the five names is
(`winsock2.h` is taken to leave the names of the header alone). -/
theorem outcome_decided_by_flag_and_prior_definitions (sys : SysHeaders) (env1 env2 : Env)
    (hP : Preserves (sys "winsock2.h") managedNames)
    (hg1 : env1 guardName = none) (hg2 : env2 guardName = none)
    (hsame : ∀ n ∈ "_WIN32" :: guardedNames, (env1 n = none ↔ env2 n = none)) :
    headerDefines sys env1 = headerDefines sys env2 ∧
      (env1 "_WIN32" = none → headerDefines sys env1 = [(guardName, guardMacro)]) ∧
      (env1 "_WIN32" ≠ none → (∀ n ∈ guardedNames, env1 n = none) →
        headerDefines sys env1 = aliasTable) := by
  have aw : ∀ (env : Env) (n : String), n ∈ "_WIN32" :: guardedNames →
      afterWinsock sys env n = env n := fun env n hn => afterWinsock_guarded sys env hP n hn
  have key : ∀ env : Env, env guardName = none → env "_WIN32" ≠ none →
      headerDefines sys env =
        [(guardName, guardMacro)]
          ++ (if env "inline" = none then [("inline", inlineMacro)] else [])
          ++ (if env "strcasecmp" = none then [("strcasecmp", strcasecmpMacro)] else [])
          ++ (if env "strncasecmp" = none then [("strncasecmp", strncasecmpMacro)] else [])
          ++ (if env "va_copy" = none then [("va_copy", vaCopyMacro)] else [])
          ++ (if env "snprintf" = none then [("snprintf", snprintfMacro)] else [])
          ++ [("strerror_r", strerrorRMacro)] := by
    intro env hg hw
    rw [headerDefines, (runLines_win32 sys env hg hw).2,
      aw env "_WIN32" (by simp [guardedNames]), aw env "inline" (by simp [guardedNames]),
      aw env "strcasecmp" (by simp [guardedNames]),
      aw env "strncasecmp" (by simp [guardedNames]),
      aw env "va_copy" (by simp [guardedNames]), aw env "snprintf" (by simp [guardedNames])]
    simp [hw]
  have s0 := hsame "_WIN32" (by simp [guardedNames])
  have s1 := hsame "inline" (by simp [guardedNames])
  have s2 := hsame "strcasecmp" (by simp [guardedNames])
  have s3 := hsame "strncasecmp" (by simp [guardedNames])
  have s4 := hsame "va_copy" (by simp [guardedNames])
  have s5 := hsame "snprintf" (by simp [guardedNames])
  refine ⟨?_, ?_, ?_⟩
  · by_cases hw : env1 "_WIN32" = none
    · rw [headerDefines, headerDefines, (runLines_other sys env1 hg1 hw).2,
        (runLines_other sys env2 hg2 (s0.mp hw)).2]
    · have hw2 : env2 "_WIN32" ≠ none := fun h => hw (s0.mpr h)
      rw [key env1 hg1 hw, key env2 hg2 hw2]
      simp only [s1, s2, s3, s4, s5]
  · intro hw
    rw [headerDefines, (runLines_other sys env1 hg1 hw).2]
  · intro hw hnone
    rw [key env1 hg1 hw]
    simp [hnone "inline" (by simp [guardedNames]), hnone "strcasecmp" (by simp [guardedNames]),
      hnone "strncasecmp" (by simp [guardedNames]), hnone "va_copy" (by simp [guardedNames]),
      hnone "snprintf" (by simp [guardedNames]), aliasTable]

/-- Witness for C9 (amended): a translation unit on the platform with and
without `__unix__` defined as well. -/
theorem outcome_decided_witness :
    headerDefines SysHeaders.sample win32Env =
        headerDefines SysHeaders.sample (win32Env.define "__unix__" ⟨none, []⟩) ∧
      headerDefines SysHeaders.sample win32Env = aliasTable :=
  have h := outcome_decided_by_flag_and_prior_definitions SysHeaders.sample win32Env
    (win32Env.define "__unix__" ⟨none, []⟩) sample_preserves (by decide) (by decide)
    (by decide)
  ⟨h.1, h.2.2 (by decide) (by decide)⟩


/-- The definitions in force after a processed inclusion on the platform. -/
theorem includeHeader_on_platform (sys : SysHeaders) (env : Env)
    (hP : Preserves (sys "winsock2.h") managedNames) (hg : env guardName = none)
    (hw : env "_WIN32" ≠ none) :
    (env "strcasecmp" = none → includeHeader sys env "strcasecmp" = some strcasecmpMacro) ∧
      (env "strncasecmp" = none →
        includeHeader sys env "strncasecmp" = some strncasecmpMacro) ∧
      (env "va_copy" = none → includeHeader sys env "va_copy" = some vaCopyMacro) ∧
      (env "snprintf" = none → includeHeader sys env "snprintf" = some snprintfMacro) ∧
      includeHeader sys env "strerror_r" = some strerrorRMacro := by
  have h := (runLines_win32 sys env hg hw).1
  have a0 := afterWinsock_of_preserves sys env hP "_WIN32" (by decide) (by decide)
  have a1 := afterWinsock_of_preserves sys env hP "strcasecmp" (by decide) (by decide)
  have a2 := afterWinsock_of_preserves sys env hP "strncasecmp" (by decide) (by decide)
  have a3 := afterWinsock_of_preserves sys env hP "va_copy" (by decide) (by decide)
  have a4 := afterWinsock_of_preserves sys env hP "snprintf" (by decide) (by decide)
  refine ⟨?_, ?_, ?_, ?_, ?_⟩
  · intro hx; rw [includeHeader, h]; simp [a1, hx]
  · intro hx; rw [includeHeader, h]; simp [a2, hx]
  · intro hx; rw [includeHeader, h]; simp [a3, hx]
  · intro hx; rw [includeHeader, h]; simp [a4, hx]
  · rw [includeHeader, h]; simp [a0, hw]



/-- C10 (as stated, refuted): on the platform with the guard of the header
already defined, inclusion skips line 30 and `strerror_r` is not given the
definition `strerror_s(buf,len,errno)`. -/
theorem guarded_inclusion_skips_strerror_r :
    win32EnvGuarded "_WIN32" ≠ none ∧ win32EnvGuarded "strerror_r" = none ∧
      includeHeader SysHeaders.quiet win32EnvGuarded "strerror_r" = none ∧
      includeHeader SysHeaders.quiet win32EnvGuarded "strerror_r" ≠ some strerrorRMacro := by
  decide

/-- C10 (amended): on the platform, each of `inline`, `strcasecmp`,
`strncasecmp`, `va_copy`, `snprintf` that is defined before inclusion keeps the
definition it had; and when the header is processed (its guard not
yet defined) `strerror_r` gets the definition `strerror_s(buf,len,errno)`
whether or not it was defined before.  `winsock2.h` is taken to leave the names
of the header alone. -/
theorem prior_definitions_kept (sys : SysHeaders) (env : Env)
    (hP : Preserves (sys "winsock2.h") managedNames) (hw : env "_WIN32" ≠ none) :
    (∀ X ∈ guardedNames, env X ≠ none → includeHeader sys env X = env X) ∧
      (env guardName = none → includeHeader sys env "strerror_r" = some strerrorRMacro) := by
  have aw : ∀ (n : String), n ∈ "_WIN32" :: guardedNames →
      afterWinsock sys env n = env n := fun n hn => afterWinsock_guarded sys env hP n hn
  constructor
  · intro X hX hdef
    by_cases hg : env guardName = none
    · rw [includeHeader, (runLines_win32 sys env hg hw).1 X]
      have hX1 := aw X (List.mem_cons_of_mem _ hX)
      simp only [guardedNames, List.mem_cons, List.mem_singleton, List.not_mem_nil,
        or_false] at hX
      rcases hX with h | h | h | h | h <;> subst h <;> simp [hX1, hdef]
    · rw [includeHeader, (runLines_skip sys env hg).1]
  · intro hg
    rw [includeHeader, (runLines_win32 sys env hg hw).1 "strerror_r",
      aw "_WIN32" (by simp)]
    simp [hw]

/-- Witness for C10 (amended): the including code's own `strcasecmp` survives
inclusion. -/
theorem prior_definitions_kept_witness :
    includeHeader SysHeaders.sample win32EnvOwnCmp "strcasecmp" =
        win32EnvOwnCmp "strcasecmp" ∧
      includeHeader SysHeaders.sample win32EnvOwnCmp "strerror_r" = some strerrorRMacro :=
  have h := prior_definitions_kept SysHeaders.sample win32EnvOwnCmp sample_preserves
    (by decide)
  ⟨h.1 "strcasecmp" (by decide) (by decide), h.2 (by decide)⟩
/-! ## Argument lists -/

/-- Reading one argument keeps it whole. -/
theorem splitArgs_append {α : Type} (tk : α → Token) (a : List α) :
    ∀ (d d1 : Nat) (rest cur : List α) (done : List (List α)),
      argDepth d (a.map tk) = some d1 →
      splitArgs tk d (a ++ rest) cur done = splitArgs tk d1 rest (a.reverse ++ cur) done := by
  induction a with
  | nil => intro d d1 rest cur done h; simp [argDepth] at h; simp [h]
  | cons t ts ih =>
    intro d d1 rest cur done h
    simp only [List.map_cons] at h
    cases ht : tk t <;> cases d <;> simp [argDepth, ht] at h <;>
      simp [splitArgs, ht, ih _ _ _ _ _ h]

/-- Reading a written argument list gives back the arguments. -/
theorem splitArgs_argTokens {α : Type} (tk : α → Token) (mk : Token → α)
    (hmk : ∀ t, tk (mk t) = t) (args : List (List Token)) :
    ∀ (rest : List Token) (done : List (List α)), args ≠ [] → (∀ a ∈ args, isArg a) →
      splitArgs tk 0 ((argTokens args ++ rest).map mk) [] done =
        some (done.reverse ++ args.map (List.map mk), mk .rparen, rest.map mk) := by
  have hmap : ∀ a : List Token, (a.map mk).map tk = a := by
    intro a; simp [List.map_map, Function.comp_def, hmk]
  induction args with
  | nil => intro _ _ h; exact absurd rfl h
  | cons a as ih =>
    intro rest done _ hargs
    have ha : argDepth 0 ((a.map mk).map tk) = some 0 := by
      rw [hmap]; exact hargs a (List.mem_cons_self _ _)
    cases as with
    | nil =>
      simp [argTokens, splitArgs_append tk (a.map mk) 0 0 _ _ _ ha, splitArgs, hmk]
    | cons b bs =>
      have := ih rest (a.map mk :: done) (by simp)
        (fun x hx => hargs x (List.mem_cons_of_mem _ hx))
      simp only [List.map_append, List.map_cons, List.append_assoc] at this
      simp [argTokens, splitArgs_append tk (a.map mk) 0 0 _ _ _ ha, splitArgs, hmk, this]

/-- A written call is read back as the routine and its arguments. -/
theorem callOf_callTokens (f : String) (args : List (List Token)) (hne : args ≠ [[]])
    (hargs : ∀ a ∈ args, isArg a) : callOf (callTokens f args) = some (f, args) := by
  cases args with
  | nil => simp [callOf, callTokens, argTokens, splitArgs, invocationArgs]
  | cons a as =>
    have h := splitArgs_argTokens id id (fun _ => rfl) (a :: as) [] [] (by simp) hargs
    simp only [List.append_nil, List.reverse_nil, List.nil_append, List.map_id,
      List.map_nil] at h
    have h2 : List.map (List.map (id : Token → Token)) (a :: as) = a :: as := by simp
    have h3 : invocationArgs ([] : List String) (a :: as) = a :: as := by
      cases a with
      | nil =>
        cases as with
        | nil => exact absurd rfl hne
        | cons b bs => rfl
      | cons t ts => rfl
    rw [h2] at h
    simp only [callOf, callTokens, h, h3]

/-- A written call of a routine reaches that routine. -/
theorem runCall_callTokens (rt : Runtime) (val : List Token → Int) (f : String)
    (args : List (List Token)) (mem : Mem) (hne : args ≠ [[]])
    (hargs : ∀ a ∈ args, isArg a) :
    runCall rt val (callTokens f args) mem = some (rt f (args.map val) mem) := by
  simp [runCall, callOf_callTokens f args hne hargs]

/-! ## Macro replacement -/

/-- Tokens that are not replaced pass through replacement as they are. -/
theorem expand_plain_append (env : Env) (p : List PTok) (hp : Plain env p) :
    ∀ (fuel : Nat) (rest : List PTok),
      expand env (fuel + p.length) (p ++ rest) = (expand env fuel rest).map (p ++ ·) := by
  induction p with
  | nil => intro fuel rest; simp
  | cons t ts ih =>
    intro fuel rest
    have ht : plainTok env t = true := hp t (List.mem_cons_self _ _)
    have hts : Plain env ts := fun x hx => hp x (List.mem_cons_of_mem _ hx)
    have key : expand env (fuel + ts.length + 1) (t :: (ts ++ rest)) =
        (expand env (fuel + ts.length) (ts ++ rest)).map (t :: ·) := by
      rw [expand]
      cases htok : t.tok <;> simp only []
      case ident x =>
        simp only [plainTok, htok, Bool.or_eq_true, Option.isNone_iff_eq_none,
          decide_eq_true_eq] at ht
        by_cases hx : x ∈ t.hide
        · simp [hx]
        · rcases ht with ht | ht
          · simp [hx, ht]
          · exact absurd ht hx
    simp only [List.length_cons, List.cons_append]
    rw [← Nat.add_assoc, key, ih hts]
    cases expand env fuel rest <;> simp

/-- Replaced arguments stay the same with more fuel. -/
theorem allSome_expand_mono (env : Env) (f : Nat)
    (ih : ∀ ts out, expand env f ts = some out → expand env (f + 1) ts = some out) :
    ∀ (args : List (List PTok)) (eargs : List (List PTok)),
      allSome (args.map (expand env f)) = some eargs →
      allSome (args.map (expand env (f + 1))) = some eargs := by
  intro args
  induction args with
  | nil => intro eargs h; simpa using h
  | cons a as iha =>
    intro eargs h
    simp only [List.map_cons] at h ⊢
    cases hea : expand env f a with
    | none => simp [hea, allSome] at h
    | some ea =>
      rw [hea] at h
      rw [ih _ _ hea]
      simp only [allSome, Option.map_eq_some'] at h ⊢
      obtain ⟨eas, heas, rfl⟩ := h
      exact ⟨eas, iha _ heas, rfl⟩

/-- More fuel does not change a result. -/
theorem expand_succ (env : Env) :
    ∀ (f : Nat) (ts out : List PTok), expand env f ts = some out →
      expand env (f + 1) ts = some out := by
  intro f
  induction f with
  | zero => intro ts out h; simp [expand] at h
  | succ f ih =>
    intro ts out h
    cases ts with
    | nil => simp [expand] at h ⊢; exact h
    | cons t ts =>
      have pass : ∀ out, (expand env f ts).map (t :: ·) = some out →
          (expand env (f + 1) ts).map (t :: ·) = some out := by
        intro out h
        simp only [Option.map_eq_some'] at h ⊢
        obtain ⟨r, hr, rfl⟩ := h
        exact ⟨r, ih _ _ hr, rfl⟩
      rw [expand] at h ⊢
      cases htok : t.tok <;> simp only [htok] at h ⊢
      case ident x =>
        by_cases hx : x ∈ t.hide
        · simp only [hx, if_true] at h ⊢; exact pass _ h
        · simp only [hx, if_false] at h ⊢
          cases hm : env x with
          | none => simp only [hm] at h ⊢; exact pass _ h
          | some m =>
            simp only [hm] at h ⊢
            cases hps : m.params with
            | none => simp only [hps] at h ⊢; exact ih _ _ h
            | some ps =>
              simp only [hps] at h ⊢
              cases ts with
              | nil => exact h
              | cons p ts1 =>
                simp only [] at h ⊢
                by_cases hp : p.tok = .lparen
                · simp only [hp, if_true] at h ⊢
                  cases hs : splitArgs PTok.tok 0 ts1 [] [] with
                  | none => simp [hs] at h
                  | some r =>
                    obtain ⟨args, close, after⟩ := r
                    simp only [hs] at h ⊢
                    by_cases hl : (invocationArgs ps args).length = ps.length
                    · simp only [hl, if_true] at h ⊢
                      cases he : allSome ((invocationArgs ps args).map (expand env f)) with
                      | none => simp [he] at h
                      | some eargs =>
                        simp only [he] at h
                        rw [allSome_expand_mono env f ih _ _ he]
                        exact ih _ _ h
                    · simp [hl] at h
                · simp only [hp, if_false] at h ⊢; exact pass _ h
      all_goals exact pass _ h

/-- A result stays the same with any larger fuel. -/
theorem expand_mono (env : Env) (f g : Nat) (ts out : List PTok) (hfg : f ≤ g)
    (h : expand env f ts = some out) : expand env g ts = some out := by
  induction g with
  | zero =>
    have : f = 0 := Nat.le_zero.mp hfg
    subst this; exact h
  | succ g ih =>
    by_cases hf : f = g + 1
    · subst hf; exact h
    · exact expand_succ env g ts out (ih (by omega))

/-- Hide sets do not show in the tokens that leave replacement. -/
theorem erase_addHide (names : List String) (ts : List PTok) :
    erase (addHide names ts) = erase ts := by
  simp [erase, addHide, List.map_map, Function.comp_def]

/-- Source tokens come back from `lift` as they were. -/
theorem erase_lift (ts : List Token) : erase (lift ts) = ts := by
  simp [erase, lift, List.map_map, Function.comp_def]

/-- Hiding more names keeps tokens unreplaced. -/
theorem plain_addHide (env : Env) (names : List String) (ts : List PTok)
    (h : Plain env ts) : Plain env (addHide names ts) := by
  intro t ht
  simp only [addHide, List.mem_map] at ht
  obtain ⟨u, hu, rfl⟩ := ht
  have := h u hu
  simp only [plainTok] at this ⊢
  cases htok : u.tok <;> simp only [htok] at this ⊢
  case ident x =>
    simp only [Bool.or_eq_true, Option.isNone_iff_eq_none, decide_eq_true_eq,
      List.mem_append] at this ⊢
    rcases this with h1 | h1
    · exact Or.inl h1
    · exact Or.inr (Or.inr h1)

/-- Unreplaced tokens are their own replacement, with enough fuel. -/
theorem expand_plain (env : Env) (p : List PTok) (hp : Plain env p) (fuel : Nat)
    (hf : p.length < fuel) : expand env fuel p = some p := by
  have h := expand_plain_append env p hp 1 []
  simp only [List.append_nil, expand, Option.map_some'] at h
  exact expand_mono env _ _ _ _ (by omega) h

/-- An object-like macro name is replaced by its replacement list, which is
scanned again together with the tokens after the name. -/
theorem expand_object (env : Env) (x : String) (body : List Token) (fuel : Nat)
    (ts : List PTok) (hdef : env x = some ⟨none, body⟩) :
    expand env (fuel + 1) (⟨.ident x, []⟩ :: ts) =
      expand env fuel (addHide [x] (lift body) ++ ts) := by
  rw [expand]
  simp [hdef]

/-- A name that is not a macro is kept. -/
theorem expand_not_macro (env : Env) (x : String) (hide : List String) (fuel : Nat)
    (ts : List PTok) (hdef : env x = none) :
    expand env (fuel + 1) (⟨.ident x, hide⟩ :: ts) =
      (expand env fuel ts).map (⟨.ident x, hide⟩ :: ·) := by
  rw [expand]
  by_cases hx : x ∈ hide <;> simp [hdef, hx]

/-- A use of an alias for a name that is not a macro: the name is replaced by
the aliased name and the tokens after it are replaced as they are after the
aliased name itself. -/
theorem preprocess_alias (env : Env) (x prim : String) (fuel : Nat) (rest : List Token)
    (hdef : env x = some ⟨none, [.ident prim]⟩) (hprim : env prim = none) :
    preprocess env (fuel + 2) (.ident x :: rest) =
        (preprocess env fuel rest).map (.ident prim :: ·) ∧
      preprocess env (fuel + 1) (.ident prim :: rest) =
        (preprocess env fuel rest).map (.ident prim :: ·) := by
  constructor
  · have h1 := expand_object env x [.ident prim] (fuel + 1) (lift rest) hdef
    have h2 := expand_not_macro env prim [x] fuel (lift rest) hprim
    simp only [preprocess, lift, List.map_cons] at h1 ⊢
    rw [h1]
    simp only [addHide, List.map_cons, List.map_nil, List.append_nil, List.cons_append,
      List.nil_append]
    simp only [lift] at h2
    rw [h2]
    cases expand env fuel (List.map (fun t => (⟨t, []⟩ : PTok)) rest) <;> simp [erase]
  · have h2 := expand_not_macro env prim [] fuel (lift rest) hprim
    simp only [preprocess, lift, List.map_cons] at h2 ⊢
    rw [h2]
    cases expand env fuel (List.map (fun t => (⟨t, []⟩ : PTok)) rest) <;> simp [erase]

/-- Source tokens that are not replaced are their own replacement. -/
theorem preprocess_plain (env : Env) (ts : List Token) (hp : Plain env (lift ts))
    (fuel : Nat) (hf : ts.length < fuel) : preprocess env fuel ts = some ts := by
  rw [preprocess, expand_plain env (lift ts) hp fuel (by simpa [lift] using hf)]
  simp [erase_lift]

/-- Arguments that are each replaced with some fuel are all replaced with one
fuel. -/
theorem allSome_of_forall₂ (env : Env) (args : List (List Token)) (eargs : List (List PTok))
    (h : List.Forall₂ (fun a ea => ∃ f, expand env f (lift a) = some ea) args eargs) :
    ∃ f0, ∀ f, f0 ≤ f → allSome ((args.map lift).map (expand env f)) = some eargs := by
  induction h with
  | nil => exact ⟨0, fun f _ => by simp [allSome]⟩
  | cons hhead _ ih =>
    obtain ⟨f1, h1⟩ := hhead
    obtain ⟨f2, h2⟩ := ih
    refine ⟨max f1 f2, fun f hf => ?_⟩
    simp only [List.map_cons]
    rw [expand_mono env f1 f _ _ (by omega) h1]
    simp only [allSome, List.map_map] at h2 ⊢
    rw [h2 f (by omega)]
    rfl

/-- An invocation of a function-like macro with the right number of
arguments: the arguments are replaced, put in the replacement list, and the
result, when it is not replaced further, is followed by the replacement of the
tokens after the invocation. -/
theorem expand_invocation (env : Env) (x : String) (ps : List String) (body : List Token)
    (args : List (List Token)) (eargs : List (List PTok)) (rest : List Token)
    (pout : List PTok) (fr : Nat)
    (hdef : env x = some ⟨some ps, body⟩) (hne : args ≠ []) (hps : ps ≠ [])
    (hargs : ∀ a ∈ args, isArg a) (hlen : args.length = ps.length)
    (he : List.Forall₂ (fun a ea => ∃ f, expand env f (lift a) = some ea) args eargs)
    (hplain : Plain env (addHide [x] (substitute ps eargs body)))
    (hr : expand env fr (lift rest) = some pout) :
    ∃ f0, ∀ f, f0 ≤ f →
      expand env f (lift (callTokens x args ++ rest)) =
        some (addHide [x] (substitute ps eargs body) ++ pout) := by
  obtain ⟨fa, hfa⟩ := allSome_of_forall₂ env args eargs he
  refine ⟨fa + fr + (addHide [x] (substitute ps eargs body)).length + 1, fun f hf => ?_⟩
  obtain ⟨g, rfl⟩ : ∃ g, f = g + 1 := ⟨f - 1, by omega⟩
  have hsplit := splitArgs_argTokens PTok.tok (fun t => (⟨t, []⟩ : PTok)) (fun _ => rfl)
    args rest [] hne hargs
  simp only [List.reverse_nil, List.nil_append] at hsplit
  have hinv : invocationArgs ps (args.map lift) = args.map lift := by
    cases ps with
    | nil => exact absurd rfl hps
    | cons p ps => rfl
  have hrescan : expand env g (addHide [x] (substitute ps eargs body) ++ lift rest) =
      some (addHide [x] (substitute ps eargs body) ++ pout) := by
    have h1 := expand_plain_append env _ hplain
      (g - (addHide [x] (substitute ps eargs body)).length) (lift rest)
    rw [Nat.sub_add_cancel (by omega)] at h1
    rw [h1, expand_mono env fr _ _ _ (by omega) hr]
    rfl
  simp only [callTokens, lift, List.map_cons, List.cons_append]
  rw [expand]
  simp only [List.not_mem_nil, if_false, hdef, if_true]
  have hsplit2 : splitArgs PTok.tok 0
      (List.map (fun t => (⟨t, []⟩ : PTok)) (argTokens args ++ rest)) [] [] =
      some (args.map lift, ⟨.rparen, []⟩, lift rest) := hsplit
  rw [hsplit2]
  simp only [hinv, List.length_map, hlen, if_true]
  rw [hfa g (by omega)]
  simp only [List.filter_nil]
  exact hrescan

/-- The written argument list of unreplaced arguments is not replaced. -/
theorem plain_argTokens (env : Env) (args : List (List Token))
    (h : ∀ a ∈ args, Plain env (lift a)) : Plain env (lift (argTokens args)) := by
  induction args with
  | nil => intro t ht; simp [argTokens, lift] at ht; subst ht; rfl
  | cons a as ih =>
    cases as with
    | nil =>
      intro t ht
      simp only [argTokens, lift, List.map_append, List.map_cons, List.map_nil,
        List.mem_append, List.mem_singleton] at ht
      rcases ht with ht | ht
      · exact h a (List.mem_cons_self _ _) t (by simpa [lift] using ht)
      · subst ht; rfl
    | cons b bs =>
      intro t ht
      simp only [argTokens, lift, List.map_append, List.map_cons, List.mem_append,
        List.mem_cons] at ht
      rcases ht with ht | ht | ht
      · exact h a (List.mem_cons_self _ _) t (by simpa [lift] using ht)
      · subst ht; rfl
      · exact ih (fun x hx => h x (List.mem_cons_of_mem _ hx)) t (by simpa [lift] using ht)

/-- A written call through an alias of a routine whose name is not a macro,
on unreplaced arguments, reaches the aliased routine. -/
theorem evalCall_alias (rt : Runtime) (val : List Token → Int) (env : Env) (x prim : String)
    (args : List (List Token)) (mem : Mem) (hdef : env x = some ⟨none, [.ident prim]⟩)
    (hprim : env prim = none) (hne : args ≠ [[]]) (hargs : ∀ a ∈ args, isArg a)
    (hplain : ∀ a ∈ args, Plain env (lift a)) :
    ∃ f0, ∀ fuel, f0 ≤ fuel →
      evalCall rt val env fuel (callTokens x args) mem = some (rt prim (args.map val) mem) := by
  refine ⟨(argTokens args).length + 4, fun fuel hfuel => ?_⟩
  obtain ⟨g, rfl⟩ : ∃ g, fuel = g + 2 := ⟨fuel - 2, by omega⟩
  have hrest : Plain env (lift (.lparen :: argTokens args)) := by
    intro t ht
    simp only [lift, List.map_cons, List.mem_cons] at ht
    rcases ht with ht | ht
    · subst ht; rfl
    · exact plain_argTokens env args hplain t (by simpa [lift] using ht)
  rw [evalCall, callTokens, (preprocess_alias env x prim g _ hdef hprim).1,
    preprocess_plain env _ hrest g (by simp; omega)]
  exact runCall_callTokens rt val prim args mem hne hargs

/-- The results of a use of an alias and of a use of the aliased name agree. -/
theorem evalCall_alias_eq (rt : Runtime) (val : List Token → Int) (env : Env)
    (x prim : String) (fuel : Nat) (rest : List Token) (mem : Mem)
    (hdef : env x = some ⟨none, [.ident prim]⟩) (hprim : env prim = none) :
    evalCall rt val env (fuel + 2) (.ident x :: rest) mem =
      evalCall rt val env (fuel + 1) (.ident prim :: rest) mem := by
  rw [evalCall, evalCall, (preprocess_alias env x prim fuel rest hdef hprim).1,
    (preprocess_alias env x prim fuel rest hdef hprim).2]

/-- Reading a parenthesised group keeps it whole. -/
theorem takeGroup_append (a : List Token) :
    ∀ (d d1 : Nat) (rest cur : List Token), argDepth d a = some d1 →
      takeGroup d (a ++ rest) cur = takeGroup d1 rest (a.reverse ++ cur) := by
  induction a with
  | nil => intro d d1 rest cur h; simp [argDepth] at h; simp [h]
  | cons t ts ih =>
    intro d d1 rest cur h
    cases t <;> cases d <;> simp [argDepth] at h <;>
      simp [takeGroup, ih _ _ _ _ h]

/-- The written assignment is read back as its operands. -/
theorem assignOf_tokens (d s : List Token) (hd : isArg d) (hs : isArg s) :
    assignOf ([.lparen, .lparen] ++ d ++ [.rparen, .assign, .lparen] ++ s ++
      [.rparen, .rparen]) = some (d, s) := by
  have h1 := takeGroup_append d 0 0 (.rparen :: .assign :: .lparen :: (s ++ [.rparen, .rparen]))
    [] hd
  have h2 := takeGroup_append s 0 0 [.rparen, .rparen] [] hs
  simp only [List.append_nil] at h1 h2
  simp [assignOf, h1, h2, takeGroup]

/-- Consuming through one cursor leaves the other cursors where they are. -/
theorem consume_other (args : List Int) (ap x : String) (hx : x ≠ ap) :
    ∀ (k : Nat) (st : Store), (consume args ap k st).2 x = st x := by
  intro k
  induction k with
  | zero => intro st; rfl
  | succ k ih =>
    intro st
    simp only [consume]
    rw [ih]
    simp [vaArg, hx]

/-- The arguments fetched are those from the position of the cursor on. -/
theorem consume_values (args : List Int) (ap : String) :
    ∀ (k : Nat) (st : Store),
      (consume args ap k st).1 = (List.range k).map fun i => args[st ap + i]? := by
  intro k
  induction k with
  | zero => intro st; rfl
  | succ k ih =>
    intro st
    simp only [consume]
    rw [ih, List.range_succ_eq_map]
    simp [vaArg, List.map_map, Function.comp_def, Nat.add_assoc, Nat.add_comm 1]

/-! ## The aliases at their uses -/

/-- The sample runtime writes within the buffer it is given. -/
theorem sampleRuntime_bounded (f : String) (dst cap : Int) (rest : List Int) (m : Mem) :
    WritesWithin m (sampleRuntime f (dst :: cap :: rest) m).2 dst cap := by
  intro a ha
  simp only [sampleRuntime]
  split
  · rfl
  · split
    · have : ¬ (a = dst ∧ 0 < cap) := by omega
      simp [this]
    · rfl

/-- C2 (as stated, refuted): with `_WIN32` defined and none of the portable
names defined before, but the guard of the header already defined, inclusion
defines nothing: `strcasecmp("ABC", "abc")` is left as written, and its call
does not reach `stricmp` (on the sample runtime it does not return what
`stricmp("ABC", "abc")` returns). -/
theorem guarded_inclusion_leaves_strcasecmp :
    win32EnvGuarded "_WIN32" ≠ none ∧ (∀ n ∈ portableNames, win32EnvGuarded n = none) ∧
      preprocess (includeHeader SysHeaders.quiet win32EnvGuarded) 20
          (callTokens "strcasecmp" [[.other "\"ABC\""], [.other "\"abc\""]]) =
        some (callTokens "strcasecmp" [[.other "\"ABC\""], [.other "\"abc\""]]) ∧
      (evalCall sampleRuntime (fun _ => 0) (includeHeader SysHeaders.quiet win32EnvGuarded) 20
          (callTokens "strcasecmp" [[.other "\"ABC\""], [.other "\"abc\""]])
          (fun _ => 0)).map Prod.fst ≠
        (evalCall sampleRuntime (fun _ => 0) (includeHeader SysHeaders.quiet win32EnvGuarded) 20
          (callTokens "stricmp" [[.other "\"ABC\""], [.other "\"abc\""]])
          (fun _ => 0)).map Prod.fst := by
  decide

/-- C2 (amended): on the platform, with the header processed (its guard not
yet defined), `strcasecmp`, `strncasecmp`, `snprintf` not defined before and
`stricmp`, `strnicmp`, `_snprintf` not macros, a use of a portable name is
replaced by the primitive, and the tokens after it (the arguments, in their
order) are replaced exactly as they are after the primitive itself; so the
call through the portable name has the result of the same call of the
primitive, on arguments without macros the result of the runtime's primitive
on the same argument values: for `strcasecmp("ABC", "abc")` it is 0 whenever
`stricmp` gives 0 there. -/
theorem portable_names_alias_primitives (sys : SysHeaders) (env : Env)
    (hP : Preserves (sys "winsock2.h") managedNames) (hg : env guardName = none)
    (hw : env "_WIN32" ≠ none) (h1 : env "strcasecmp" = none)
    (h2 : env "strncasecmp" = none) (h3 : env "snprintf" = none)
    (p1 : includeHeader sys env "stricmp" = none)
    (p2 : includeHeader sys env "strnicmp" = none)
    (p3 : includeHeader sys env "_snprintf" = none)
    (rt : Runtime) (val : List Token → Int) (mem : Mem) :
    (∀ fuel rest,
        (preprocess (includeHeader sys env) (fuel + 2) (.ident "strcasecmp" :: rest) =
            (preprocess (includeHeader sys env) fuel rest).map (.ident "stricmp" :: ·) ∧
          preprocess (includeHeader sys env) (fuel + 1) (.ident "stricmp" :: rest) =
            (preprocess (includeHeader sys env) fuel rest).map (.ident "stricmp" :: ·)) ∧
        (preprocess (includeHeader sys env) (fuel + 2) (.ident "strncasecmp" :: rest) =
            (preprocess (includeHeader sys env) fuel rest).map (.ident "strnicmp" :: ·) ∧
          preprocess (includeHeader sys env) (fuel + 1) (.ident "strnicmp" :: rest) =
            (preprocess (includeHeader sys env) fuel rest).map (.ident "strnicmp" :: ·)) ∧
        (preprocess (includeHeader sys env) (fuel + 2) (.ident "snprintf" :: rest) =
            (preprocess (includeHeader sys env) fuel rest).map (.ident "_snprintf" :: ·) ∧
          preprocess (includeHeader sys env) (fuel + 1) (.ident "_snprintf" :: rest) =
            (preprocess (includeHeader sys env) fuel rest).map (.ident "_snprintf" :: ·))) ∧
      (∀ fuel rest,
        evalCall rt val (includeHeader sys env) (fuel + 2) (.ident "strcasecmp" :: rest) mem =
            evalCall rt val (includeHeader sys env) (fuel + 1) (.ident "stricmp" :: rest) mem ∧
          evalCall rt val (includeHeader sys env) (fuel + 2) (.ident "strncasecmp" :: rest) mem =
            evalCall rt val (includeHeader sys env) (fuel + 1) (.ident "strnicmp" :: rest) mem ∧
          evalCall rt val (includeHeader sys env) (fuel + 2) (.ident "snprintf" :: rest) mem =
            evalCall rt val (includeHeader sys env) (fuel + 1) (.ident "_snprintf" :: rest)
              mem) ∧
      (∀ args, args ≠ [[]] → (∀ a ∈ args, isArg a) →
        (∀ a ∈ args, Plain (includeHeader sys env) (lift a)) →
        ∃ f0, ∀ fuel, f0 ≤ fuel →
          evalCall rt val (includeHeader sys env) fuel (callTokens "strcasecmp" args) mem =
              some (rt "stricmp" (args.map val) mem) ∧
            evalCall rt val (includeHeader sys env) fuel (callTokens "strncasecmp" args) mem =
              some (rt "strnicmp" (args.map val) mem) ∧
            evalCall rt val (includeHeader sys env) fuel (callTokens "snprintf" args) mem =
              some (rt "_snprintf" (args.map val) mem)) ∧
      (rt "stricmp" [val [.other "\"ABC\""], val [.other "\"abc\""]] mem = (0, mem) →
        ∃ f0, ∀ fuel, f0 ≤ fuel →
          evalCall rt val (includeHeader sys env) fuel
              (callTokens "strcasecmp" [[.other "\"ABC\""], [.other "\"abc\""]]) mem =
            some (0, mem)) := by
  obtain ⟨d1, d2, _, d4, _⟩ := includeHeader_on_platform sys env hP hg hw
  have e1 := d1 h1
  have e2 := d2 h2
  have e3 := d4 h3
  have call : ∀ args, args ≠ [[]] → (∀ a ∈ args, isArg a) →
      (∀ a ∈ args, Plain (includeHeader sys env) (lift a)) →
      ∃ f0, ∀ fuel, f0 ≤ fuel →
        evalCall rt val (includeHeader sys env) fuel (callTokens "strcasecmp" args) mem =
            some (rt "stricmp" (args.map val) mem) ∧
          evalCall rt val (includeHeader sys env) fuel (callTokens "strncasecmp" args) mem =
            some (rt "strnicmp" (args.map val) mem) ∧
          evalCall rt val (includeHeader sys env) fuel (callTokens "snprintf" args) mem =
            some (rt "_snprintf" (args.map val) mem) := by
    intro args hne hargs hplain
    obtain ⟨f1, c1⟩ := evalCall_alias rt val _ "strcasecmp" "stricmp" args mem e1 p1 hne hargs
      hplain
    obtain ⟨f2, c2⟩ := evalCall_alias rt val _ "strncasecmp" "strnicmp" args mem e2 p2 hne
      hargs hplain
    obtain ⟨f3, c3⟩ := evalCall_alias rt val _ "snprintf" "_snprintf" args mem e3 p3 hne hargs
      hplain
    exact ⟨max f1 (max f2 f3), fun fuel hf =>
      ⟨c1 fuel (by omega), c2 fuel (by omega), c3 fuel (by omega)⟩⟩
  refine ⟨fun fuel rest => ⟨preprocess_alias _ _ _ fuel rest e1 p1,
      preprocess_alias _ _ _ fuel rest e2 p2, preprocess_alias _ _ _ fuel rest e3 p3⟩,
    fun fuel rest => ⟨evalCall_alias_eq rt val _ _ _ fuel rest mem e1 p1,
      evalCall_alias_eq rt val _ _ _ fuel rest mem e2 p2,
      evalCall_alias_eq rt val _ _ _ fuel rest mem e3 p3⟩, call, ?_⟩
  intro h0
  obtain ⟨f0, c⟩ := call [[.other "\"ABC\""], [.other "\"abc\""]] (by simp)
    (by decide) (by
      intro a ha t ht
      simp only [List.mem_cons, List.mem_singleton, List.not_mem_nil, or_false] at ha
      rcases ha with rfl | rfl <;> simp [lift] at ht <;> subst ht <;> rfl)
  refine ⟨f0, fun fuel hf => ?_⟩
  rw [(c fuel hf).1]
  simpa using h0

/-- Witness for C2 (amended) on a translation unit with `_WIN32` alone defined,
on the sample runtime: `strcasecmp("ABC", "abc")` returns the 0 of
`stricmp`. -/
theorem portable_names_alias_primitives_witness :
    ∃ f0, ∀ fuel, f0 ≤ fuel →
      evalCall sampleRuntime (fun _ => 0) (includeHeader SysHeaders.sample win32Env) fuel
          (callTokens "strcasecmp" [[.other "\"ABC\""], [.other "\"abc\""]]) (fun _ => 0) =
        some (0, fun _ => 0) :=
  (portable_names_alias_primitives SysHeaders.sample win32Env sample_preserves (by decide)
    (by decide) (by decide) (by decide) (by decide) (by decide) (by decide) (by decide)
    sampleRuntime (fun _ => 0) (fun _ => 0)).2.2.2 (by simp [sampleRuntime])

/-- C8 (as stated, refuted): on the platform with `va_copy` not defined before
but the guard of the header already defined, `va_copy` is not a macro after
inclusion: `va_copy(d, s)` is left as written and is not the assignment
`((d) = (s))`. -/
theorem guarded_inclusion_leaves_va_copy :
    win32EnvGuarded "_WIN32" ≠ none ∧ win32EnvGuarded "va_copy" = none ∧
      preprocess (includeHeader SysHeaders.quiet win32EnvGuarded) 20
          (callTokens "va_copy" [[.ident "d"], [.ident "s"]]) =
        some (callTokens "va_copy" [[.ident "d"], [.ident "s"]]) ∧
      execAssign sampleLoc sampleRval (fun _ => 0)
          (callTokens "va_copy" [[.ident "d"], [.ident "s"]]) = none := by
  refine ⟨by decide, by decide, by decide, rfl⟩

/-- C8 (amended): on the platform, with the header processed (its guard not
yet defined) and `va_copy` not defined before, `va_copy(d, s)` is replaced by the
assignment `((d) = (s))` on the replaced operands; executed, the object `d`
designates then holds the value of `s` and every other object keeps its
value; and when `s` designates a cursor object other than that of `d`, it
stays where it was while any number of arguments is fetched through `d`, these
are the arguments from the position of `s` on, and fetching as many through
`s` afterwards yields the same arguments again. -/
theorem va_copy_is_assignment (sys : SysHeaders) (env : Env)
    (hP : Preserves (sys "winsock2.h") managedNames) (hg : env guardName = none)
    (hw : env "_WIN32" ≠ none) (hv : env "va_copy" = none)
    (d s d1 s1 : List Token) (hd : isArg d) (hs : isArg s)
    (xd : ExpandsTo (includeHeader sys env) d d1)
    (xs : ExpandsTo (includeHeader sys env) s s1) :
    (∃ f0, ∀ fuel, f0 ≤ fuel →
        preprocess (includeHeader sys env) fuel (callTokens "va_copy" [d, s]) =
          some ([.lparen, .lparen] ++ d1 ++ [.rparen, .assign, .lparen] ++ s1 ++
            [.rparen, .rparen])) ∧
      ∀ (loc : List Token → Option String) (rval : List Token → Store → Nat) (st : Store)
        (ld : String), isArg d1 → isArg s1 → loc d1 = some ld →
        ∃ st1,
          execAssign loc rval st ([.lparen, .lparen] ++ d1 ++ [.rparen, .assign, .lparen] ++
              s1 ++ [.rparen, .rparen]) = some st1 ∧
            st1 ld = rval s1 st ∧ (∀ x, x ≠ ld → st1 x = st x) ∧
            ∀ (ls : String) (args : List Int) (k : Nat), ls ≠ ld → rval s1 st = st ls →
              st1 ls = st ls ∧ (consume args ld k st1).2 ls = st ls ∧
                (consume args ld k st1).1 = (List.range k).map (fun i => args[st ls + i]?) ∧
                (consume args ls k (consume args ld k st1).2).1 =
                  (List.range k).map (fun i => args[st ls + i]?) := by
  have hdef := (includeHeader_on_platform sys env hP hg hw).2.2.1 hv
  constructor
  · obtain ⟨fd, pd, hxd, hpd, rfl⟩ := xd
    obtain ⟨fs, ps, hxs, hps, rfl⟩ := xs
    have hfa : List.Forall₂
        (fun a ea => ∃ f, expand (includeHeader sys env) f (lift a) = some ea)
        [d, s] [pd, ps] := .cons ⟨fd, hxd⟩ (.cons ⟨fs, hxs⟩ .nil)
    have hsub : substitute ["d", "s"] [pd, ps] vaCopyMacro.body =
        ⟨.lparen, []⟩ :: ⟨.lparen, []⟩ :: (pd ++ ⟨.rparen, []⟩ :: ⟨.assign, []⟩ ::
          ⟨.lparen, []⟩ :: (ps ++ [⟨.rparen, []⟩, ⟨.rparen, []⟩])) := by
      simp [substitute, vaCopyMacro, List.lookup]
    have hplain : Plain (includeHeader sys env)
        (addHide ["va_copy"] (substitute ["d", "s"] [pd, ps] vaCopyMacro.body)) := by
      apply plain_addHide
      rw [hsub]
      intro t ht
      simp only [List.mem_cons, List.mem_append, List.mem_singleton, List.not_mem_nil,
        or_false] at ht
      rcases ht with rfl | rfl | ht | rfl | rfl | rfl | ht | rfl | rfl
      · rfl
      · rfl
      · exact hpd t ht
      · rfl
      · rfl
      · rfl
      · exact hps t ht
      · rfl
      · rfl
    obtain ⟨f0, h0⟩ := expand_invocation (includeHeader sys env) "va_copy" ["d", "s"]
      vaCopyMacro.body [d, s] [pd, ps] [] [] 1 hdef (by simp) (by simp) (by simp [hd, hs])
      rfl hfa hplain rfl
    refine ⟨f0, fun fuel hf => ?_⟩
    have := h0 fuel hf
    simp only [List.append_nil] at this
    rw [preprocess, this, Option.map_some', erase_addHide, hsub]
    simp [erase]
  · intro loc rval st ld ad as hloc
    refine ⟨fun x => if x = ld then rval s1 st else st x, ?_, by simp, ?_, ?_⟩
    · rw [execAssign, assignOf_tokens d1 s1 ad as]
      simp [hloc]
    · intro x hx; simp [hx]
    · intro ls args k hls hval
      have h1 : (fun x => if x = ld then rval s1 st else st x) ls = st ls := by simp [hls]
      have h2 : (consume args ld k (fun x => if x = ld then rval s1 st else st x)).2 ls =
          st ls := by
        rw [consume_other args ld ls hls]; exact h1
      refine ⟨h1, h2, ?_, ?_⟩
      · rw [consume_values]; simp [hval]
      · rw [consume_values, h2]

/-- Witness for C8 (amended): `va_copy(copy, ap)` with the cursor `ap` at
position 1 of the arguments 10, 20, 30; two arguments are fetched through
each. -/
theorem va_copy_is_assignment_witness :
    (∃ f0, ∀ fuel, f0 ≤ fuel →
        preprocess (includeHeader SysHeaders.sample win32Env) fuel
            (callTokens "va_copy" [[.ident "copy"], [.ident "ap"]]) =
          some [.lparen, .lparen, .ident "copy", .rparen, .assign, .lparen, .ident "ap",
            .rparen, .rparen]) ∧
      ∃ st1,
        execAssign sampleLoc sampleRval (fun x => if x = "ap" then 1 else 0)
            [.lparen, .lparen, .ident "copy", .rparen, .assign, .lparen, .ident "ap",
              .rparen, .rparen] = some st1 ∧
          st1 "copy" = 1 ∧ st1 "ap" = 1 ∧
          (consume [10, 20, 30] "copy" 2 st1).1 = [some 20, some 30] ∧
          (consume [10, 20, 30] "ap" 2 (consume [10, 20, 30] "copy" 2 st1).2).1 =
            [some 20, some 30] := by
  have h := va_copy_is_assignment SysHeaders.sample win32Env sample_preserves (by decide)
    (by decide) (by decide) [.ident "copy"] [.ident "ap"] [.ident "copy"] [.ident "ap"]
    (by decide) (by decide) ⟨10, lift [.ident "copy"], by decide, by decide, by decide⟩
    ⟨10, lift [.ident "ap"], by decide, by decide, by decide⟩
  refine ⟨h.1, ?_⟩
  obtain ⟨st1, e1, e2, _, e4⟩ := h.2 sampleLoc sampleRval (fun x => if x = "ap" then 1 else 0)
    "copy" (by decide) (by decide) rfl
  obtain ⟨k1, _, k3, k4⟩ := e4 "ap" [10, 20, 30] 2 (by decide) rfl
  exact ⟨st1, e1, e2, k1, k3, k4⟩

end Win32Helper
